import Mathlib

/-!
Verification of the chord core of the staff repository: a shallow embedding of
src/interval.rs and src/chord/mod.rs, together with spec-derived models of the
small value-type modules (interval sets and MIDI pitch arithmetic) that the
chord code uses but that are not part of the core sources.
-/

namespace Staff

/-- Embeds struct Interval (src/interval.rs): a semitone count stored as a u8.
The u8 payload is modelled as a Nat kept below 256 by the constructor and by
the arithmetic, mirroring 8-bit wrap-around where the source performs u8
addition. -/
structure Interval where
  semitones : Nat
deriving DecidableEq

/-- Embeds Interval::new (src/interval.rs): the u8 parameter is modelled by
reducing the given Nat modulo 256. -/
def Interval.new (s : Nat) : Interval :=
  { semitones := s % 256 }

def Interval.UNISON : Interval := Interval.new 0

def Interval.MINOR_SECOND : Interval := Interval.new 1

def Interval.MAJOR_SECOND : Interval := Interval.new 2

def Interval.MINOR_THIRD : Interval := Interval.new 3

def Interval.MAJOR_THIRD : Interval := Interval.new 4

def Interval.PERFECT_FOURTH : Interval := Interval.new 5

def Interval.TRITONE : Interval := Interval.new 6

def Interval.PERFECT_FIFTH : Interval := Interval.new 7

def Interval.MINOR_SIXTH : Interval := Interval.new 8

def Interval.MAJOR_SIXTH : Interval := Interval.new 9

def Interval.MINOR_SEVENTH : Interval := Interval.new 10

def Interval.MAJOR_SEVENTH : Interval := Interval.new 11

/-- Modelled from the spec: Interval::MAJOR_NINTH is referenced by the chord
builders but its defining constant is not among the core sources; the spec's
data model (semitone counts, compound intervals) fixes it at 14 semitones. -/
def Interval.MAJOR_NINTH : Interval := Interval.new 14

def Interval.THIRTEENTH : Interval := Interval.new 21

/-- Embeds impl Add for Interval (src/interval.rs): Self::new of the sum of
the two u8 semitone counts; u8 arithmetic is modelled modulo 256. -/
def Interval.add (a b : Interval) : Interval :=
  Interval.new (a.semitones + b.semitones)

/-- Embeds impl Display for Interval (src/interval.rs): the four named
intervals render as shown and every other value reaches the unimplemented
branch, modelled as none. -/
def Interval.display (i : Interval) : Option String :=
  if i = Interval.UNISON then some "1"
  else if i = Interval.MAJOR_THIRD then some "3"
  else if i = Interval.PERFECT_FIFTH then some "5"
  else if i = Interval.MINOR_SEVENTH then some "m7"
  else none

/-- Modelled from the spec: crate::set::IntervalSet is not among the core
sources. Per the spec's data model it is an ordered collection of distinct
Interval values, always kept sorted ascending and deduplicated on insertion;
it is modelled as the underlying list, with every operation maintaining the
canonical order. -/
structure IntervalSet where
  elems : List Interval
deriving DecidableEq

def IntervalSet.empty : IntervalSet :=
  { elems := [] }

/-- Modelled from the spec: insertion into the sorted, deduplicated list of a
set; a value already present is discarded. -/
def insertSorted (i : Interval) : List Interval → List Interval
  | [] => [i]
  | a :: t =>
    if i.semitones < a.semitones then i :: a :: t
    else if i.semitones = a.semitones then a :: t
    else a :: insertSorted i t

/-- Modelled from the spec: IntervalSet::push inserts, is a no-op if the
interval is already present, and re-establishes the sorted invariant. -/
def IntervalSet.push (s : IntervalSet) (i : Interval) : IntervalSet :=
  { elems := insertSorted i s.elems }

/-- Modelled from the spec: IntervalSet::extend is repeated push. -/
def IntervalSet.extend (s : IntervalSet) (l : List Interval) : IntervalSet :=
  l.foldl IntervalSet.push s

/-- Modelled from the spec: IntervalSet::contains is an exact membership
test. -/
def IntervalSet.contains (s : IntervalSet) (i : Interval) : Bool :=
  decide (i ∈ s.elems)

/-- Modelled from the spec: IntervalSet::map applies a function to every
element and recanonicalizes the images into a fresh sorted, deduplicated
set. -/
def IntervalSet.map (s : IntervalSet) (f : Interval → Interval) : IntervalSet :=
  IntervalSet.empty.extend (s.elems.map f)

/-- Modelled from the spec: consuming iteration over an IntervalSet drains it
in ascending order, which for the canonical list model is the list itself. -/
def IntervalSet.toList (s : IntervalSet) : List Interval :=
  s.elems

/-- Modelled from the spec: the pitch-arithmetic module (crate::midi) is not
among the core sources. A MidiNote is a pitch stored as a MIDI byte. -/
structure MidiNote where
  byte : Nat
deriving DecidableEq

/-- Modelled from the spec: MidiNote::from_byte, with the u8 parameter
modelled modulo 256. -/
def MidiNote.from_byte (n : Nat) : MidiNote :=
  { byte := n % 256 }

/-- Modelled from the spec: transposition of a MidiNote by an Interval. -/
def MidiNote.add (n : MidiNote) (i : Interval) : MidiNote :=
  { byte := n.byte + i.semitones }

/-- Modelled from the spec: note distance between two MidiNotes as an
Interval; intended for a first operand at or above the second (the inference
caller supplies the bass, the lowest note, first), modelled with truncated
Nat subtraction. -/
def MidiNote.sub (a b : MidiNote) : Interval :=
  { semitones := a.byte - b.byte }

/-- Modelled from the spec: MidiNote::abs_diff, the unsigned semitone
distance between two notes. -/
def MidiNote.abs_diff (a b : MidiNote) : Interval :=
  { semitones := Nat.dist a.byte b.byte }

/-- Modelled from the spec: the Natural note-name vocabulary. -/
inductive Natural
  | A
  | B
  | C
  | D
  | E
  | F
  | G
deriving DecidableEq

/-- Modelled from the spec: conversion of a character to a Natural; the seven
note letters succeed, everything else is a failure. -/
def naturalFromChar (c : Char) : Option Natural :=
  match c with
  | 'A' => some Natural.A
  | 'B' => some Natural.B
  | 'C' => some Natural.C
  | 'D' => some Natural.D
  | 'E' => some Natural.E
  | 'F' => some Natural.F
  | 'G' => some Natural.G
  | _ => none

/-- Modelled from the spec: the pitch class of a natural note name, in
semitones above C. -/
def Natural.pitchIndex : Natural → Nat
  | Natural.C => 0
  | Natural.D => 2
  | Natural.E => 4
  | Natural.F => 5
  | Natural.G => 7
  | Natural.A => 9
  | Natural.B => 11

/-- Modelled from the spec: a Pitch is a concrete pitch class, 0 to 11. -/
def Natural.natural (n : Natural) : Nat := n.pitchIndex

/-- Modelled from the spec: Note::flat resolved to a pitch class. -/
def Natural.flat (n : Natural) : Nat := (n.pitchIndex + 11) % 12

/-- Modelled from the spec: Note::double_flat resolved to a pitch class. -/
def Natural.double_flat (n : Natural) : Nat := (n.pitchIndex + 10) % 12

/-- Modelled from the spec: Note::sharp resolved to a pitch class. -/
def Natural.sharp (n : Natural) : Nat := (n.pitchIndex + 1) % 12

/-- Modelled from the spec: Note::double_sharp resolved to a pitch class. -/
def Natural.double_sharp (n : Natural) : Nat := (n.pitchIndex + 2) % 12

/-- Modelled from the spec: Octave::FOUR, the fixed reference octave used by
the symbol parsing path. -/
def octaveFour : Nat := 4

/-- Modelled from the spec: MidiNote::new from a pitch class and an octave,
with C4 at MIDI byte 60. -/
def MidiNote.new (pitch octave : Nat) : MidiNote :=
  { byte := (octave + 1) * 12 + pitch }

/-- Modelled from the spec: the display name of a pitch class. -/
def pitchName : Nat → String
  | 0 => "C"
  | 1 => "C#"
  | 2 => "D"
  | 3 => "D#"
  | 4 => "E"
  | 5 => "F"
  | 6 => "F#"
  | 7 => "G"
  | 8 => "G#"
  | 9 => "A"
  | 10 => "A#"
  | 11 => "B"
  | _ => ""

/-- Modelled from the spec: the display name of a MidiNote, its pitch-class
name followed by its octave number (C4 is byte 60). -/
def MidiNote.name (n : MidiNote) : String :=
  pitchName (n.byte % 12) ++ toString ((n.byte : Int) / 12 - 1)

/-- Embeds struct Chord (src/chord/mod.rs). -/
structure Chord where
  root : MidiNote
  bass : Option MidiNote
  is_inversion : Bool
  intervals : IntervalSet
deriving DecidableEq

/-- Embeds Chord::new (src/chord/mod.rs). -/
def Chord.new (root : MidiNote) : Chord :=
  { root := root, bass := none, is_inversion := false, intervals := IntervalSet.empty }

/-- Embeds the Chord::bass builder (src/chord/mod.rs): sets the bass field
and nothing else. Named withBass because the field projection already takes
the source name. -/
def Chord.withBass (c : Chord) (bass_note : MidiNote) : Chord :=
  { c with bass := some bass_note }

/-- Embeds the Chord::inversion builder (src/chord/mod.rs): sets the
inversion flag and then the bass. -/
def Chord.inversion (c : Chord) (bass_note : MidiNote) : Chord :=
  ({ c with is_inversion := true }).withBass bass_note

/-- Embeds the Chord::interval builder (src/chord/mod.rs). -/
def Chord.interval (c : Chord) (i : Interval) : Chord :=
  { c with intervals := c.intervals.push i }

/-- Embeds the Chord::root builder (src/chord/mod.rs), which pushes UNISON.
Named rootUnison because the field projection already takes the source
name. -/
def Chord.rootUnison (c : Chord) : Chord :=
  c.interval Interval.UNISON

/-- Embeds Chord::major (src/chord/mod.rs). -/
def Chord.major (root : MidiNote) : Chord :=
  (((Chord.new root).rootUnison).interval Interval.MAJOR_THIRD).interval Interval.PERFECT_FIFTH

/-- Embeds Chord::minor (src/chord/mod.rs). -/
def Chord.minor (root : MidiNote) : Chord :=
  (((Chord.new root).rootUnison).interval Interval.MINOR_THIRD).interval Interval.PERFECT_FIFTH

/-- Embeds Chord::seventh (src/chord/mod.rs). -/
def Chord.seventh (root : MidiNote) : Chord :=
  (Chord.major root).interval Interval.MINOR_SEVENTH

/-- Embeds Chord::major_seventh (src/chord/mod.rs). -/
def Chord.major_seventh (c : Chord) : Chord :=
  c.interval Interval.MAJOR_SEVENTH

/-- Embeds Chord::minor_seventh (src/chord/mod.rs). -/
def Chord.minor_seventh (root : MidiNote) : Chord :=
  (Chord.minor root).interval Interval.MINOR_SEVENTH

/-- Embeds Chord::major_ninth (src/chord/mod.rs). -/
def Chord.major_ninth (c : Chord) : Chord :=
  c.interval Interval.MAJOR_NINTH

/-- Embeds Chord::half_diminished (src/chord/mod.rs). -/
def Chord.half_diminished (root : MidiNote) : Chord :=
  ((((Chord.new root).rootUnison).interval Interval.MINOR_THIRD).interval
    Interval.TRITONE).interval Interval.MINOR_SEVENTH

/-- Embeds Chord::from_midi (src/chord/mod.rs): the first note is the bass
candidate; if it differs from the root the chord is an inversion with that
bass; UNISON is pushed unconditionally, and every remaining note contributes
its distance from the lowest note (bass if present, else root). An empty
input yields none. The dbg loop of the source is diagnostic only and has no
effect on the returned value. -/
def Chord.from_midi (root : MidiNote) (notes : List MidiNote) : Option Chord :=
  match notes with
  | [] => none
  | bass_note :: rest =>
    let bass : Option MidiNote := if bass_note = root then none else some bass_note
    let is_inversion : Bool := if bass_note = root then false else true
    let lowest_note := bass.getD root
    let intervals :=
      (IntervalSet.empty.push Interval.UNISON).extend
        (rest.map (fun midi => midi.sub lowest_note))
    some { root := root, bass := bass, is_inversion := is_inversion, intervals := intervals }

/-- Embeds the Chord::intervals method (src/chord/mod.rs), the root-relative
derivation: every stored (bass-relative) interval is re-anchored by adding it
to the lowest note and re-expressed as the unsigned distance from the root,
and the images are collected into a fresh canonical set. Named
derivedIntervals because the field projection already takes the source
name. -/
def Chord.derivedIntervals (c : Chord) : IntervalSet :=
  c.intervals.map (fun interval => ((c.bass.getD c.root).add interval).abs_diff c.root)

/-- Embeds impl IntoIterator for Chord together with the iterator over MIDI
notes (src/chord/mod.rs lines 196-224): the base note is the bass if present,
else the root, and each drained interval is added to it in turn. The Iter
type itself lives in the chord::iter module, which is not among the core
sources; its stepping is modelled from the spec as identical to MidiNotes
(lines 196-202). -/
def Chord.midiNotesList (c : Chord) : List MidiNote :=
  (c.intervals.toList).map (fun i => (c.bass.getD c.root).add i)

/-- Embeds impl FromIterator for Chord (src/chord/mod.rs): the first note (or
byte 0 for an empty input) becomes the root and is re-prepended before
inference; the unwrap never fails because the sequence passed to from_midi is
never empty. -/
def Chord.fromIter (notes : List MidiNote) : Chord :=
  match notes with
  | [] =>
    (Chord.from_midi (MidiNote.from_byte 0) [MidiNote.from_byte 0]).getD
      (Chord.new (MidiNote.from_byte 0))
  | r :: rest => (Chord.from_midi r (r :: rest)).getD (Chord.new r)

/-- Embeds impl Display for Chord (src/chord/mod.rs): the sequential
conditional writes, with the mutable has_fifth flag carried in a pair; every
predicate re-derives the root-relative interval set exactly as the source
re-clones and re-consumes the chord per query. -/
def Chord.symbol (c : Chord) : String :=
  let s0 := c.root.name
  let s1 :=
    if (c.derivedIntervals).contains Interval.MINOR_THIRD then s0 ++ "m"
    else if (c.derivedIntervals).contains Interval.MAJOR_SECOND then s0 ++ "sus2"
    else if (c.derivedIntervals).contains Interval.PERFECT_FOURTH then s0 ++ "sus4"
    else s0
  let p :=
    if (c.derivedIntervals).contains Interval.TRITONE then (s1 ++ "b5", true)
    else if !((c.derivedIntervals).contains Interval.PERFECT_FIFTH) then (s1, false)
    else (s1, true)
  let s3 :=
    if (c.derivedIntervals).contains Interval.MINOR_SEVENTH then p.1 ++ "7"
    else if (c.derivedIntervals).contains Interval.MAJOR_SEVENTH then p.1 ++ "maj7"
    else p.1
  let s4 :=
    match c.bass with
    | some b => s3 ++ ("/" ++ b.name)
    | none => s3
  let s5 :=
    if !((c.derivedIntervals).contains Interval.UNISON) then s4 ++ "(no root)" else s4
  if !p.2 then s5 ++ "(no5)" else s5

/-- The symbol as the claim states it: the root note name followed, in fixed
order, by one quality token (first match among m, sus2, sus4), then b5 if the
tritone is present, then one seventh token (first match among 7, maj7), then
slash plus the bass name if bass is set, then the no-root marker if unison is
absent, then the no-fifth marker if both the perfect fifth and the tritone
are absent, every predicate evaluated on the root-relative interval set. -/
def Chord.specSymbol (c : Chord) : String :=
  c.root.name
    ++ (if (c.derivedIntervals).contains Interval.MINOR_THIRD then "m"
        else if (c.derivedIntervals).contains Interval.MAJOR_SECOND then "sus2"
        else if (c.derivedIntervals).contains Interval.PERFECT_FOURTH then "sus4"
        else "")
    ++ (if (c.derivedIntervals).contains Interval.TRITONE then "b5" else "")
    ++ (if (c.derivedIntervals).contains Interval.MINOR_SEVENTH then "7"
        else if (c.derivedIntervals).contains Interval.MAJOR_SEVENTH then "maj7"
        else "")
    ++ (match c.bass with
        | some b => "/" ++ b.name
        | none => "")
    ++ (if (c.derivedIntervals).contains Interval.UNISON then "" else "(no root)")
    ++ (if !((c.derivedIntervals).contains Interval.PERFECT_FIFTH)
          && !((c.derivedIntervals).contains Interval.TRITONE) then "(no5)" else "")

/-- The three outcomes of the symbol parsing path: a chord, the declared
error value of the FromStr implementation (the unit error type), or a panic
(an unwrap failure or an unimplemented-code abort). -/
inductive ParseOut
  | ok (c : Chord)
  | err
  | panic
deriving DecidableEq

/-- Embeds the trailing-modifier loop of impl FromStr for Chord
(src/chord/mod.rs lines 311-328): b followed by 5 pushes a tritone, a bare
trailing b ends the loop, 7 pushes a minor seventh, and any other character
reaches an unimplemented-code abort, modelled as panic. -/
def parseMods : List Char → Chord → ParseOut
  | [], chord => ParseOut.ok chord
  | c :: rest, chord =>
    if c = 'b' then
      match rest with
      | [] => ParseOut.ok chord
      | c2 :: r2 =>
        if c2 = '5' then parseMods r2 (chord.interval Interval.TRITONE)
        else ParseOut.panic
    else if c = '7' then parseMods rest (chord.interval Interval.MINOR_SEVENTH)
    else ParseOut.panic

/-- Embeds the quality step of impl FromStr for Chord (src/chord/mod.rs lines
303-309): an m selects the minor builder, anything else the major builder, on
the resolved pitch at the reference octave; the rest goes to the modifier
loop. -/
def parseQuality (root : Nat) (cs : List Char) : ParseOut :=
  match cs with
  | 'm' :: rest => parseMods rest (Chord.minor (MidiNote.new root octaveFour))
  | _ => parseMods cs (Chord.major (MidiNote.new root octaveFour))

/-- Embeds impl FromStr for Chord (src/chord/mod.rs): the first character
must convert to a Natural (the source unwraps, so an empty input or an
invalid letter is a panic), an optional accidental of up to two flats or two
sharps resolves the pitch class, then the quality step and the modifier loop
run on the remainder. -/
def Chord.fromStr (s : String) : ParseOut :=
  match s.data with
  | [] => ParseOut.panic
  | c0 :: cs =>
    match naturalFromChar c0 with
    | none => ParseOut.panic
    | some natural =>
      match cs with
      | 'b' :: cs2 =>
        match cs2 with
        | 'b' :: cs3 => parseQuality natural.double_flat cs3
        | _ => parseQuality natural.flat cs2
      | '#' :: cs2 =>
        match cs2 with
        | '#' :: cs3 => parseQuality natural.double_sharp cs3
        | _ => parseQuality natural.sharp cs2
      | _ => parseQuality natural.natural cs

example : Chord.fromStr "D##" = ParseOut.ok (Chord.major (MidiNote.new 4 4)) := by rfl

example : Chord.fromStr "Cm7" = ParseOut.ok (Chord.minor_seventh (MidiNote.new 0 4)) := by rfl

example : Chord.fromStr "Cb5" = ParseOut.panic := by rfl

example :
    (Chord.from_midi (MidiNote.new 0 3) [MidiNote.new 4 3]).map Chord.symbol
      = some "C3/E3(no root)(no5)" := by rfl

/-- The strict numeric order on intervals that the canonical set maintains. -/
def intervalLt (a b : Interval) : Prop :=
  a.semitones < b.semitones

theorem mem_insertSorted (i a : Interval) (l : List Interval) :
    a ∈ insertSorted i l ↔ a = i ∨ a ∈ l := by
  induction l with
  | nil => simp [insertSorted]
  | cons x t ih =>
    by_cases h1 : i.semitones < x.semitones
    · simp only [insertSorted]
      rw [if_pos h1]
      simp only [List.mem_cons]
      try tauto
    · by_cases h2 : i.semitones = x.semitones
      · simp only [insertSorted]
        rw [if_neg h1, if_pos h2]
        have hx : i = x := by
          cases i
          cases x
          simpa using h2
        subst hx
        simp only [List.mem_cons]
        tauto
      · simp only [insertSorted]
        rw [if_neg h1, if_neg h2]
        simp only [List.mem_cons, ih]
        tauto

theorem pairwise_insertSorted (i : Interval) (l : List Interval)
    (h : l.Pairwise intervalLt) : (insertSorted i l).Pairwise intervalLt := by
  induction l with
  | nil => simp [insertSorted, intervalLt]
  | cons x t ih =>
    rw [List.pairwise_cons] at h
    obtain ⟨hx, ht⟩ := h
    by_cases h1 : i.semitones < x.semitones
    · simp only [insertSorted]
      rw [if_pos h1, List.pairwise_cons]
      refine ⟨?_, List.pairwise_cons.mpr ⟨hx, ht⟩⟩
      intro b hb
      rcases List.mem_cons.mp hb with hb | hb
      · subst hb
        exact h1
      · exact Nat.lt_trans h1 (hx b hb)
    · by_cases h2 : i.semitones = x.semitones
      · simp only [insertSorted]
        rw [if_neg h1, if_pos h2]
        exact List.pairwise_cons.mpr ⟨hx, ht⟩
      · simp only [insertSorted]
        rw [if_neg h1, if_neg h2, List.pairwise_cons]
        refine ⟨?_, ih ht⟩
        intro b hb
        rcases (mem_insertSorted i b t).mp hb with hb | hb
        · subst hb
          exact Nat.lt_of_le_of_ne (Nat.le_of_not_lt h1) (fun h3 => h2 h3.symm)
        · exact hx b hb

theorem insertSorted_of_mem (i : Interval) (l : List Interval)
    (hp : l.Pairwise intervalLt) (hm : i ∈ l) : insertSorted i l = l := by
  induction l with
  | nil => cases hm
  | cons x t ih =>
    rw [List.pairwise_cons] at hp
    obtain ⟨hx, ht⟩ := hp
    rcases List.mem_cons.mp hm with hm | hm
    · subst hm
      simp [insertSorted]
    · have hlt : x.semitones < i.semitones := hx i hm
      simp only [insertSorted]
      rw [if_neg (by omega), if_neg (by omega), ih ht hm]

theorem contains_iff_mem (s : IntervalSet) (i : Interval) :
    s.contains i = true ↔ i ∈ s.elems := by
  simp [IntervalSet.contains]

theorem extend_elems_mem (l : List Interval) (s : IntervalSet) (a : Interval) :
    a ∈ (s.extend l).elems ↔ a ∈ s.elems ∨ a ∈ l := by
  induction l generalizing s with
  | nil => simp [IntervalSet.extend]
  | cons x t ih =>
    have hstep : s.extend (x :: t) = (s.push x).extend t := rfl
    rw [hstep, ih]
    simp [IntervalSet.push, mem_insertSorted, List.mem_cons]
    tauto

theorem pairwise_extend (l : List Interval) (s : IntervalSet)
    (h : s.elems.Pairwise intervalLt) : ((s.extend l).elems).Pairwise intervalLt := by
  induction l generalizing s with
  | nil => exact h
  | cons x t ih =>
    have hstep : s.extend (x :: t) = (s.push x).extend t := rfl
    rw [hstep]
    exact ih (s.push x) (pairwise_insertSorted x s.elems h)

theorem mem_map_set (s : IntervalSet) (f : Interval → Interval) (x : Interval)
    (hx : x ∈ s.elems) : f x ∈ (s.map f).elems := by
  rw [IntervalSet.map, extend_elems_mem]
  exact Or.inr (List.mem_map.mpr ⟨x, hx, rfl⟩)

/-- The two mutating operations of an IntervalSet, for quantifying over
arbitrary operation sequences. -/
inductive SetOp
  | pushOp (i : Interval)
  | extendOp (l : List Interval)

def SetOp.apply (s : IntervalSet) : SetOp → IntervalSet
  | SetOp.pushOp i => s.push i
  | SetOp.extendOp l => s.extend l

def applySetOps (ops : List SetOp) (s : IntervalSet) : IntervalSet :=
  ops.foldl SetOp.apply s

def SetOp.inserted : SetOp → List Interval
  | SetOp.pushOp i => [i]
  | SetOp.extendOp l => l

def insertedIntervals (ops : List SetOp) : List Interval :=
  ops.foldr (fun op acc => op.inserted ++ acc) []

theorem applySetOps_mem (ops : List SetOp) (s : IntervalSet) (a : Interval) :
    a ∈ (applySetOps ops s).elems ↔ a ∈ s.elems ∨ a ∈ insertedIntervals ops := by
  induction ops generalizing s with
  | nil => simp [applySetOps, insertedIntervals]
  | cons op t ih =>
    have hstep : applySetOps (op :: t) s = applySetOps t (op.apply s) := rfl
    rw [hstep, ih]
    have hins : insertedIntervals (op :: t) = op.inserted ++ insertedIntervals t := rfl
    rw [hins]
    cases op with
    | pushOp i =>
      simp [SetOp.apply, SetOp.inserted, IntervalSet.push, mem_insertSorted]
      tauto
    | extendOp l =>
      simp [SetOp.apply, SetOp.inserted, extend_elems_mem]
      tauto

theorem applySetOps_pairwise (ops : List SetOp) (s : IntervalSet)
    (h : s.elems.Pairwise intervalLt) :
    ((applySetOps ops s).elems).Pairwise intervalLt := by
  induction ops generalizing s with
  | nil => exact h
  | cons op t ih =>
    have hstep : applySetOps (op :: t) s = applySetOps t (op.apply s) := rfl
    rw [hstep]
    apply ih
    cases op with
    | pushOp i => exact pairwise_insertSorted i s.elems h
    | extendOp l => exact pairwise_extend l s h

theorem pairwise_intervalLt_nodup (l : List Interval)
    (h : l.Pairwise intervalLt) : l.Nodup :=
  h.imp (fun hlt => by
    intro he
    rw [he] at hlt
    exact Nat.lt_irrefl _ hlt)

/-- C7: starting from the empty IntervalSet, any sequence of push and extend
operations yields a set whose iteration order is strictly ascending with no
duplicates, whose members are exactly the distinct inserted intervals (each
counted once), and on which pushing an already-present interval is a no-op;
all operations are total. -/
theorem intervalSet_canonical (ops : List SetOp) :
    ((applySetOps ops IntervalSet.empty).elems).Pairwise intervalLt ∧
    (∀ i, (applySetOps ops IntervalSet.empty).contains i = true ↔
      i ∈ insertedIntervals ops) ∧
    (∀ i, i ∈ (applySetOps ops IntervalSet.empty).elems →
      ((applySetOps ops IntervalSet.empty).elems).count i = 1) ∧
    (∀ i, (applySetOps ops IntervalSet.empty).contains i = true →
      (applySetOps ops IntervalSet.empty).push i = applySetOps ops IntervalSet.empty) := by
  have hpw : ((applySetOps ops IntervalSet.empty).elems).Pairwise intervalLt :=
    applySetOps_pairwise ops IntervalSet.empty (by simp [IntervalSet.empty])
  refine ⟨hpw, ?_, ?_, ?_⟩
  · intro i
    rw [contains_iff_mem, applySetOps_mem]
    simp [IntervalSet.empty]
  · intro i hi
    exact List.count_eq_one_of_mem (pairwise_intervalLt_nodup _ hpw) hi
  · intro i hi
    rw [contains_iff_mem] at hi
    rw [IntervalSet.push, insertSorted_of_mem i _ hpw hi]

/-- Witness for C7 at a concrete operation sequence with a duplicate push. -/
theorem intervalSet_canonical_witness :
    ((applySetOps [SetOp.pushOp (Interval.new 4), SetOp.pushOp (Interval.new 0),
        SetOp.pushOp (Interval.new 4)] IntervalSet.empty).elems).count (Interval.new 4) = 1 :=
  (intervalSet_canonical [SetOp.pushOp (Interval.new 4), SetOp.pushOp (Interval.new 0),
    SetOp.pushOp (Interval.new 4)]).2.2.1 (Interval.new 4) (by decide)

/-- C9 counterexample: interval addition is 8-bit and wraps, so composing 200
and 100 semitones does not give the exact arithmetic sum 300. -/
theorem interval_add_overflow_counterexample :
    (Interval.add (Interval.new 200) (Interval.new 100)).semitones ≠ 200 + 100 := by
  decide

/-- C9 (amended): interval composition is the exact arithmetic sum whenever
that sum fits in the 8-bit semitone range, and the compound thirteenth at 21
semitones is representable. -/
theorem interval_add_exact (a b : Interval)
    (h : a.semitones + b.semitones < 256) :
    (Interval.add a b).semitones = a.semitones + b.semitones ∧
    Interval.THIRTEENTH.semitones = 21 := by
  constructor
  · simp [Interval.add, Interval.new, Nat.mod_eq_of_lt h]
  · rfl

/-- Witness for C9 (amended) at 9 + 12 semitones. -/
theorem interval_add_exact_witness :
    (Interval.add (Interval.new 9) (Interval.new 12)).semitones
        = (Interval.new 9).semitones + (Interval.new 12).semitones ∧
    Interval.THIRTEENTH.semitones = 21 :=
  interval_add_exact (Interval.new 9) (Interval.new 12) (by decide)

/-- C10: formatting an Interval succeeds exactly on UNISON, MAJOR_THIRD,
PERFECT_FIFTH and MINOR_SEVENTH, rendered 1, 3, 5 and m7; every other value
reaches the unimplemented-panic branch, modelled as none. -/
theorem interval_display_characterization (i : Interval) :
    (Interval.display Interval.UNISON = some "1" ∧
     Interval.display Interval.MAJOR_THIRD = some "3" ∧
     Interval.display Interval.PERFECT_FIFTH = some "5" ∧
     Interval.display Interval.MINOR_SEVENTH = some "m7") ∧
    ((i.display).isSome = true ↔
      (i = Interval.UNISON ∨ i = Interval.MAJOR_THIRD ∨
       i = Interval.PERFECT_FIFTH ∨ i = Interval.MINOR_SEVENTH)) := by
  refine ⟨⟨rfl, rfl, rfl, rfl⟩, ?_⟩
  simp only [Interval.display]
  split_ifs with h1 h2 h3 h4 <;> simp_all

/-- Witness for C10 at UNISON. -/
theorem interval_display_witness :
    (Interval.display Interval.UNISON).isSome = true :=
  (interval_display_characterization Interval.UNISON).2.mpr (Or.inl rfl)

/-- C2: inference returns none exactly on the empty note sequence; on a
non-empty sequence it returns a chord with the given root, with bass and
inversion flag set exactly when the first note differs from the root, and
with an interval set holding UNISON plus, for each remaining note, its
distance from the lowest note (bass if present, else root). -/
theorem from_midi_characterization (root first : MidiNote) (rest : List MidiNote) :
    Chord.from_midi root [] = none ∧
    ∀ c, Chord.from_midi root (first :: rest) = some c →
      c.root = root ∧
      c.bass = (if first = root then none else some first) ∧
      c.is_inversion = (if first = root then false else true) ∧
      ∀ i, c.intervals.contains i = true ↔
        (i = Interval.UNISON ∨ ∃ m ∈ rest, i = m.sub (c.bass.getD c.root)) := by
  refine ⟨rfl, ?_⟩
  intro c hc
  simp only [Chord.from_midi, Option.some.injEq] at hc
  subst hc
  refine ⟨rfl, rfl, rfl, ?_⟩
  intro i
  rw [contains_iff_mem, extend_elems_mem]
  simp only [IntervalSet.push, IntervalSet.empty, insertSorted, List.mem_singleton,
    List.mem_map]
  constructor
  · rintro (h | ⟨m, hm, he⟩)
    · exact Or.inl h
    · exact Or.inr ⟨m, hm, he.symm⟩
  · rintro (h | ⟨m, hm, he⟩)
    · exact Or.inl h
    · exact Or.inr ⟨m, hm, he.symm⟩

/-- Witness for C2 at root C4 with an inverted input starting on E4. -/
theorem from_midi_characterization_witness :
    (Chord.mk (MidiNote.mk 60) (some (MidiNote.mk 64)) true
        (IntervalSet.mk [Interval.mk 0, Interval.mk 3])).root = MidiNote.mk 60 :=
  (((from_midi_characterization (MidiNote.mk 60) (MidiNote.mk 64)
      [MidiNote.mk 67]).2) _ (by rfl)).1

/-- C4 counterexample: for root C4 and input notes E4, G4 (an inverted input
whose notes do not include the root pitch), the root-relative interval set
consulted by the formatter does not contain unison, and the rendered symbol
does contain the no-root marker. -/
theorem from_midi_no_root_counterexample :
    (Chord.from_midi (MidiNote.mk 60) [MidiNote.mk 64, MidiNote.mk 67]).map
        (fun c => (c.derivedIntervals).contains Interval.UNISON) = some false ∧
    (Chord.from_midi (MidiNote.mk 60) [MidiNote.mk 64, MidiNote.mk 67]).map Chord.symbol
        = some "C4/E4(no root)" := by
  exact ⟨by decide, by rfl⟩

/-- C4 (amended): UNISON is always force-inserted into the stored,
bass-relative interval set by inference; the root-relative set consulted by
the formatter therefore contains unison whenever the chord is not an
inversion (first input note equal to the root), and the no-root marker is
unreachable in that case — but not for inverted inputs. -/
theorem from_midi_unison (root : MidiNote) (notes : List MidiNote) (c : Chord)
    (hc : Chord.from_midi root notes = some c) :
    c.intervals.contains Interval.UNISON = true ∧
    (c.bass = none → (c.derivedIntervals).contains Interval.UNISON = true) := by
  cases notes with
  | nil => simp [Chord.from_midi] at hc
  | cons first rest =>
    simp only [Chord.from_midi, Option.some.injEq] at hc
    subst hc
    constructor
    · rw [contains_iff_mem, extend_elems_mem]
      left
      simp [IntervalSet.push, IntervalSet.empty, insertSorted]
    · intro hb
      rw [contains_iff_mem]
      by_cases hfr : first = root
      · have hmem : Interval.UNISON ∈
            ((IntervalSet.empty.push Interval.UNISON).extend
              (rest.map (fun midi => midi.sub ((if first = root then none
                else some first : Option MidiNote).getD root)))).elems := by
          rw [extend_elems_mem]
          left
          simp [IntervalSet.push, IntervalSet.empty, insertSorted]
        have himg := mem_map_set _
          (fun interval =>
            ((((if first = root then none else some first : Option MidiNote).getD root).add
              interval).abs_diff root)) _ hmem
        simp only [Chord.derivedIntervals]
        convert himg using 2
        simp [hfr, MidiNote.add, MidiNote.abs_diff, Nat.dist_self, Interval.UNISON,
          Interval.new]
      · exfalso
        simp only [hfr] at hb
        simp at hb

/-- Witness for C4 (amended) at root C4 with a root-position input. -/
theorem from_midi_unison_witness :
    ((Chord.mk (MidiNote.mk 60) none false
        (IntervalSet.mk [Interval.mk 0, Interval.mk 4])).derivedIntervals).contains
      Interval.UNISON = true :=
  (from_midi_unison (MidiNote.mk 60) [MidiNote.mk 60, MidiNote.mk 64] _ (by rfl)).2 rfl

theorem strAppend_assoc (a b d : String) : a ++ b ++ d = a ++ (b ++ d) := by
  apply String.ext
  simp [String.data_append, List.append_assoc]

theorem strAppend_empty (a : String) : a ++ "" = a := by
  apply String.ext
  simp [String.data_append]

theorem strEmpty_append (a : String) : "" ++ a = a := by
  apply String.ext
  simp [String.data_append]

/-- C1: for every Chord, the rendered symbol is exactly the root note name
followed, in the fixed order, by the quality token, the flat-five token, the
seventh token, the slash-bass suffix, the no-root marker and the no-fifth
marker, each predicate evaluated against the root-relative interval set; the
formatting function is total, so no input makes it an error. -/
theorem chord_symbol_eq_spec (c : Chord) : c.symbol = c.specSymbol := by
  simp only [Chord.symbol, Chord.specSymbol]
  cases hb : c.bass <;>
    cases h1 : (c.derivedIntervals).contains Interval.MINOR_THIRD <;>
    cases h2 : (c.derivedIntervals).contains Interval.MAJOR_SECOND <;>
    cases h3 : (c.derivedIntervals).contains Interval.PERFECT_FOURTH <;>
    cases h4 : (c.derivedIntervals).contains Interval.TRITONE <;>
    cases h5 : (c.derivedIntervals).contains Interval.PERFECT_FIFTH <;>
    cases h6 : (c.derivedIntervals).contains Interval.MINOR_SEVENTH <;>
    cases h7 : (c.derivedIntervals).contains Interval.MAJOR_SEVENTH <;>
    cases h8 : (c.derivedIntervals).contains Interval.UNISON <;>
    simp [strAppend_assoc, strAppend_empty, strEmpty_append]

theorem parseMods_shape (cs : List Char) (chord : Chord) :
    ∀ c, parseMods cs chord = ParseOut.ok c →
      c.root = chord.root ∧ c.bass = chord.bass ∧ c.is_inversion = chord.is_inversion := by
  induction cs, chord using parseMods.induct with
  | case1 chord =>
    intro c h
    simp only [parseMods, ParseOut.ok.injEq] at h
    subst h
    exact ⟨rfl, rfl, rfl⟩
  | case2 chord =>
    intro c h
    simp only [parseMods, reduceIte, ParseOut.ok.injEq] at h
    subst h
    exact ⟨rfl, rfl, rfl⟩
  | case3 chord r2 ih =>
    intro c h
    rw [parseMods.eq_def] at h
    simp at h
    obtain ⟨h1, h2, h3⟩ := ih c h
    exact ⟨h1, h2, h3⟩
  | case4 chord c2 r2 h5 =>
    intro c h
    rw [parseMods.eq_def] at h
    simp [h5] at h
  | case5 rest chord h7b ih =>
    intro c h
    rw [parseMods.eq_def] at h
    simp at h
    obtain ⟨h1, h2, h3⟩ := ih c h
    exact ⟨h1, h2, h3⟩
  | case6 cc rest chord hb h7 =>
    intro c h
    rw [parseMods.eq_def] at h
    simp [hb, h7] at h

theorem parseQuality_shape (root : Nat) (cs : List Char) (c : Chord)
    (h : parseQuality root cs = ParseOut.ok c) :
    c.bass = none ∧ c.is_inversion = false := by
  unfold parseQuality at h
  split at h
  · obtain ⟨_, h2, h3⟩ := parseMods_shape _ _ c h
    exact ⟨h2, h3⟩
  · obtain ⟨_, h2, h3⟩ := parseMods_shape _ _ c h
    exact ⟨h2, h3⟩

theorem parse_ok_shape (s : String) (c : Chord)
    (h : Chord.fromStr s = ParseOut.ok c) :
    c.bass = none ∧ c.is_inversion = false := by
  unfold Chord.fromStr at h
  split at h
  · exact ParseOut.noConfusion h
  · split at h
    · exact ParseOut.noConfusion h
    · split at h
      · split at h
        · exact parseQuality_shape _ _ _ h
        · exact parseQuality_shape _ _ _ h
      · split at h
        · exact parseQuality_shape _ _ _ h
        · exact parseQuality_shape _ _ _ h
      · exact parseQuality_shape _ _ _ h

theorem parseMods_ne_err (cs : List Char) (chord : Chord) :
    parseMods cs chord ≠ ParseOut.err := by
  induction cs, chord using parseMods.induct with
  | case1 chord => simp [parseMods]
  | case2 chord => simp [parseMods]
  | case3 chord r2 ih =>
    rw [parseMods.eq_def]
    simpa using ih
  | case4 chord c2 r2 h5 =>
    rw [parseMods.eq_def]
    simp [h5]
  | case5 rest chord h7b ih =>
    rw [parseMods.eq_def]
    simpa using ih
  | case6 cc rest chord hb h7 =>
    rw [parseMods.eq_def]
    simp [hb, h7]

theorem parseQuality_ne_err (root : Nat) (cs : List Char) :
    parseQuality root cs ≠ ParseOut.err := by
  unfold parseQuality
  split
  · exact parseMods_ne_err _ _
  · exact parseMods_ne_err _ _

/-- The invariant the claim states between the bass field and the inversion
flag of a Chord. -/
def ChordInvariant (c : Chord) : Prop :=
  (∀ n, c.bass = some n → n ≠ c.root → c.is_inversion = true) ∧
  (c.bass = none → c.is_inversion = false)

/-- The chords obtainable through the public construction paths the claim
lists: new, the bass and inversion builders, the interval and quality
builders, inference, FromIterator and successful symbol parsing. -/
inductive ChordReach : Chord → Prop
  | new (r : MidiNote) : ChordReach (Chord.new r)
  | withBass (c : Chord) (b : MidiNote) : ChordReach c → ChordReach (c.withBass b)
  | inversion (c : Chord) (b : MidiNote) : ChordReach c → ChordReach (c.inversion b)
  | interval (c : Chord) (i : Interval) : ChordReach c → ChordReach (c.interval i)
  | rootUnison (c : Chord) : ChordReach c → ChordReach c.rootUnison
  | major (r : MidiNote) : ChordReach (Chord.major r)
  | minor (r : MidiNote) : ChordReach (Chord.minor r)
  | seventh (r : MidiNote) : ChordReach (Chord.seventh r)
  | major_seventh (c : Chord) : ChordReach c → ChordReach c.major_seventh
  | minor_seventh (r : MidiNote) : ChordReach (Chord.minor_seventh r)
  | major_ninth (c : Chord) : ChordReach c → ChordReach c.major_ninth
  | half_diminished (r : MidiNote) : ChordReach (Chord.half_diminished r)
  | from_midi (r : MidiNote) (notes : List MidiNote) (c : Chord) :
      Chord.from_midi r notes = some c → ChordReach c
  | fromIter (notes : List MidiNote) : ChordReach (Chord.fromIter notes)
  | parsed (s : String) (c : Chord) : Chord.fromStr s = ParseOut.ok c → ChordReach c

/-- The same construction paths without the plain bass builder, which is the
one path that sets a bass without updating the inversion flag. -/
inductive ChordReachNB : Chord → Prop
  | new (r : MidiNote) : ChordReachNB (Chord.new r)
  | inversion (c : Chord) (b : MidiNote) : ChordReachNB c → ChordReachNB (c.inversion b)
  | interval (c : Chord) (i : Interval) : ChordReachNB c → ChordReachNB (c.interval i)
  | rootUnison (c : Chord) : ChordReachNB c → ChordReachNB c.rootUnison
  | major (r : MidiNote) : ChordReachNB (Chord.major r)
  | minor (r : MidiNote) : ChordReachNB (Chord.minor r)
  | seventh (r : MidiNote) : ChordReachNB (Chord.seventh r)
  | major_seventh (c : Chord) : ChordReachNB c → ChordReachNB c.major_seventh
  | minor_seventh (r : MidiNote) : ChordReachNB (Chord.minor_seventh r)
  | major_ninth (c : Chord) : ChordReachNB c → ChordReachNB c.major_ninth
  | half_diminished (r : MidiNote) : ChordReachNB (Chord.half_diminished r)
  | from_midi (r : MidiNote) (notes : List MidiNote) (c : Chord) :
      Chord.from_midi r notes = some c → ChordReachNB c
  | fromIter (notes : List MidiNote) : ChordReachNB (Chord.fromIter notes)
  | parsed (s : String) (c : Chord) : Chord.fromStr s = ParseOut.ok c → ChordReachNB c

theorem invariant_of_plain (c : Chord) (hb : c.bass = none)
    (hi : c.is_inversion = false) : ChordInvariant c := by
  refine ⟨?_, fun _ => hi⟩
  intro n hn hne
  rw [hb] at hn
  cases hn

/-- C3 counterexample: the chord built by new followed by the plain bass
builder with a bass different from the root is reachable through the listed
construction paths, has such a bass, and still has a false inversion flag. -/
theorem chord_inversion_flag_counterexample :
    ¬ ∀ c : Chord, ChordReach c → ChordInvariant c := by
  intro h
  have h1 := (h ((Chord.new (MidiNote.mk 60)).withBass (MidiNote.mk 64))
    (ChordReach.withBass _ _ (ChordReach.new _))).1 (MidiNote.mk 64) rfl (by decide)
  exact absurd h1 (by decide)

/-- C3 (amended): for every chord obtainable through the public construction
paths other than the plain bass builder, a bass different from the root
implies the inversion flag, and an absent bass implies a cleared flag; the
plain bass builder sets a bass without touching the flag. -/
theorem chord_inversion_flag_invariant (c : Chord) (h : ChordReachNB c) :
    ChordInvariant c := by
  induction h with
  | new r => exact invariant_of_plain _ rfl rfl
  | inversion c b hc ih =>
    refine ⟨fun n hn hne => rfl, ?_⟩
    intro hn
    simp [Chord.inversion, Chord.withBass] at hn
  | interval c i hc ih => exact ih
  | rootUnison c hc ih => exact ih
  | major r => exact invariant_of_plain _ rfl rfl
  | minor r => exact invariant_of_plain _ rfl rfl
  | seventh r => exact invariant_of_plain _ rfl rfl
  | major_seventh c hc ih => exact ih
  | minor_seventh r => exact invariant_of_plain _ rfl rfl
  | major_ninth c hc ih => exact ih
  | half_diminished r => exact invariant_of_plain _ rfl rfl
  | from_midi r notes c hc =>
    cases notes with
    | nil => simp [Chord.from_midi] at hc
    | cons first rest =>
      simp only [Chord.from_midi, Option.some.injEq] at hc
      subst hc
      by_cases hfr : first = r
      · exact invariant_of_plain _ (by simp [hfr]) (by simp [hfr])
      · refine ⟨fun n hn hne => by simp [hfr], ?_⟩
        intro hn
        simp [hfr] at hn
  | fromIter notes =>
    cases notes with
    | nil => exact invariant_of_plain _ (by decide) (by decide)
    | cons r rest =>
      refine invariant_of_plain _ ?_ ?_ <;>
        simp [Chord.fromIter, Chord.from_midi]
  | parsed s c hc =>
    obtain ⟨hb, hi⟩ := parse_ok_shape s c hc
    exact invariant_of_plain c hb hi

/-- Witness for C3 (amended) at the major quality builder. -/
theorem chord_inversion_flag_witness :
    ChordInvariant (Chord.major (MidiNote.mk 60)) :=
  chord_inversion_flag_invariant _ (ChordReachNB.major _)

/-- C5 counterexample: parsing the symbol Cb5 does not succeed with a C major
chord plus a tritone; the b is consumed as a flat accidental and the
remaining 5 aborts the parse. -/
theorem parse_cb5_counterexample :
    Chord.fromStr "Cb5" = ParseOut.panic ∧
    Chord.fromStr "Cb5"
        ≠ ParseOut.ok ((Chord.major (MidiNote.new 0 octaveFour)).interval Interval.TRITONE) := by
  exact ⟨rfl, by decide⟩

/-- C5 (amended): on Cb5 the parser consumes the b as a flat accidental on C
and then aborts on the unconsumed 5; the b5 modifier token is recognized only
when the b is not in accidental position, as in Cmb5 or C#b5. -/
theorem parse_cb5_amended :
    Chord.fromStr "Cb5" = ParseOut.panic ∧
    Chord.fromStr "Cmb5"
        = ParseOut.ok ((Chord.minor (MidiNote.new 0 octaveFour)).interval Interval.TRITONE) ∧
    Chord.fromStr "C#b5"
        = ParseOut.ok ((Chord.major (MidiNote.new 1 octaveFour)).interval Interval.TRITONE) :=
  ⟨rfl, rfl, rfl⟩

/-- C6: parsing an invalid leading letter or an unrecognized trailing token
fails immediately and no chord is produced, but the failure is a panic (an
unwrap or an unimplemented-code abort), never the declared error value of the
FromStr implementation: no input makes fromStr return err. -/
theorem parse_failures_panic :
    Chord.fromStr "X" = ParseOut.panic ∧
    Chord.fromStr "Cq" = ParseOut.panic ∧
    ∀ s, Chord.fromStr s ≠ ParseOut.err := by
  refine ⟨rfl, rfl, ?_⟩
  intro s
  unfold Chord.fromStr
  split
  · simp
  · split
    · simp
    · split
      · split
        · exact parseQuality_ne_err _ _
        · exact parseQuality_ne_err _ _
      · split
        · exact parseQuality_ne_err _ _
        · exact parseQuality_ne_err _ _
      · exact parseQuality_ne_err _ _

/-- Witness for C6 at the input X. -/
theorem parse_failures_panic_witness : Chord.fromStr "X" ≠ ParseOut.err :=
  parse_failures_panic.2.2 "X"

instance : DecidableRel intervalLt :=
  fun a b => inferInstanceAs (Decidable (a.semitones < b.semitones))

/-- C8 counterexample: a chord whose interval set lacks UNISON starts its
note sequence above the base note, so the first element is not the bass or
the root. -/
theorem chord_iter_head_counterexample :
    ¬ ∀ c : Chord, (c.midiNotesList).head? = some (c.bass.getD c.root) := by
  intro h
  have h2 := h ((Chord.new (MidiNote.mk 60)).interval (Interval.new 4))
  exact absurd h2 (by decide)

/-- C8 (amended): for every chord whose interval set is canonical (strictly
ascending, as every public construction keeps it) and contains UNISON,
consuming iteration yields the bass note if present, else the root, as its
first element. -/
theorem chord_iter_head (c : Chord)
    (hs : (c.intervals.elems).Pairwise intervalLt)
    (hu : c.intervals.contains Interval.UNISON = true) :
    (c.midiNotesList).head? = some (c.bass.getD c.root) := by
  rw [contains_iff_mem] at hu
  rcases hh : c.intervals.elems with _ | ⟨x, t⟩
  · rw [hh] at hu
    cases hu
  · rw [hh] at hu hs
    have hx : x = Interval.UNISON := by
      rcases List.mem_cons.mp hu with h | h
      · exact h.symm
      · exfalso
        rw [List.pairwise_cons] at hs
        have hlt := hs.1 _ h
        simp [intervalLt, Interval.UNISON, Interval.new] at hlt
    subst hx
    simp [Chord.midiNotesList, IntervalSet.toList, hh, MidiNote.add,
      Interval.UNISON, Interval.new]

/-- Witness for C8 (amended) at the C major chord. -/
theorem chord_iter_head_witness :
    ((Chord.major (MidiNote.mk 60)).midiNotesList).head?
      = some ((Chord.major (MidiNote.mk 60)).bass.getD (Chord.major (MidiNote.mk 60)).root) :=
  chord_iter_head (Chord.major (MidiNote.mk 60)) (by decide) (by decide)

end Staff
